import Mathlib

/-!
Verification development for the s3-profiler analysis pipeline
(packages `profiler`: bucket.go, metadata.go, partition.go).

Embedding conventions:
* Go strings are modelled as `List Char`.  Go string comparison (`<` on
  strings) is byte-lexicographic; for valid UTF-8 this agrees with the
  codepoint-lexicographic order on the character list used here.
* Go `int64` sizes and counts are modelled as `Int` / `Nat` (the program
  only increments and adds; the spec talks about exact equalities).
* `time.Time` is modelled as `Int` (timestamps are totally ordered;
  `Before`/`After` are the strict orders; the zero time is `0`).
* Go `float64` cost arithmetic is modelled with exact rationals `ℚ`.
  The float comparison `float64(m)/float64(n) > 0.5` agrees with the
  rational comparison `m / n > 1/2` (equivalently `2*m > n`) for all
  counts below `2^52`, where the conversions are exact.
* Go maps (random iteration order) are modelled as insertion-ordered
  association lists; the code only inspects maps via sorted views, so
  the deterministic model produces the same observable results except
  for ties under the hierarchical count sort, which the code itself
  leaves unspecified.
-/

abbrev Key := List Char

/-- `types.ObjectMetadata` from the source repository. -/
structure ObjectMetadata where
  key : Key
  size : Int
  lastModified : Int
  storageClass : Key
  etag : Key
deriving Repr, DecidableEq

/-- `types.Partition`.  The Go field `Prefix` is named `pref` here. -/
structure Partition where
  pref : Key
  pattern : Key
  objectCount : Nat
  totalSize : Int
  examples : List Key
deriving Repr, DecidableEq

/-- Boolean lexicographic order on character lists: the total order Go
uses to compare strings (byte order; identical on valid UTF-8). -/
def lexLe : Key → Key → Bool
  | [], _ => true
  | _ :: _, [] => false
  | a :: as, b :: bs => if a < b then true else if b < a then false else lexLe as bs

/-- Ordered insertion used by `sortByLe` below. -/
def insertLe {α : Type} (le : α → α → Bool) (a : α) : List α → List α
  | [] => [a]
  | b :: l => if le a b then a :: b :: l else b :: insertLe le a l

/-- Insertion sort by a boolean `le`; models the deterministic outcome of
`sort.Slice` in the source (which is only applied either with distinct
sort keys, where the result is unique, or where the spec leaves tie
order unspecified). -/
def sortByLe {α : Type} (le : α → α → Bool) : List α → List α
  | [] => []
  | a :: l => insertLe le a (sortByLe le l)

/-- One token of a date-pattern shape: a literal character or a `\d`
digit class (RE2 `\d` is exactly `[0-9]`). -/
inductive Tok where
  | lit : Char → Tok
  | dig : Tok
deriving Repr, DecidableEq

abbrev Shape := List Tok

/-- Literal tokens for a fixed string fragment of a pattern. -/
def lits (s : String) : Shape := s.toList.map Tok.lit

/-- `n` digit tokens (`\d{n}`). -/
def digs (n : Nat) : Shape := List.replicate n Tok.dig

/-- Does the shape match a prefix of the character list?  Each token
consumes exactly one character. -/
def matchAt : Shape → List Char → Bool
  | [], _ => true
  | _ :: _, [] => false
  | Tok.lit c :: ts, a :: as => a = c && matchAt ts as
  | Tok.dig :: ts, a :: as => a.isDigit && matchAt ts as

/-- Leftmost match of a shape in a key, returning the matched substring
(`FindStringSubmatch(...)[0]` in the source: the patterns are
alternation-free and fixed-length, so RE2's leftmost match is the first
position where the shape matches, and the match has the shape's length). -/
def findFirst (s : Shape) : List Char → Option (List Char)
  | [] => if matchAt s [] then some [] else none
  | c :: rest =>
      if matchAt s (c :: rest) then some ((c :: rest).take s.length)
      else findFirst s rest

/-- Whether a key has any substring matching the shape. -/
def hasMatch (s : Shape) (cs : List Char) : Bool := (findFirst s cs).isSome

/-- Updating one partition group of the accumulating map
(`partition.go` lines 84-98 and 125-139): bump the first entry with the
given group key, or append a fresh entry.  `prefFn` is `id` for the date
patterns and appends a trailing slash for the hierarchical grouping. -/
def addToGroup (prefFn : Key → Key) (pat : Key) (k : Key) (o : ObjectMetadata) :
    List (Key × Partition) → List (Key × Partition)
  | [] => [(k, { pref := prefFn k, pattern := pat, objectCount := 1,
                 totalSize := o.size, examples := [o.key] })]
  | (k', p) :: rest =>
      if k' = k then
        (k', { p with objectCount := p.objectCount + 1,
                      totalSize := p.totalSize + o.size,
                      examples := if p.examples.length < 3 then p.examples ++ [o.key]
                                  else p.examples }) :: rest
      else (k', p) :: addToGroup prefFn pat k o rest

/-- One step of the grouping loop: objects whose `keyFn` is `none` are
skipped (no regex match / no slash in the key). -/
def groupStep (keyFn : ObjectMetadata → Option Key) (prefFn : Key → Key) (pat : Key)
    (acc : List (Key × Partition)) (o : ObjectMetadata) : List (Key × Partition) :=
  match keyFn o with
  | some k => addToGroup prefFn pat k o acc
  | none => acc

/-- The grouping loop over all objects (the `partitionMap` / `prefixMap`
construction in the source), keyed by the group key, in first-seen order. -/
def groupFold (keyFn : ObjectMetadata → Option Key) (prefFn : Key → Key) (pat : Key)
    (objects : List ObjectMetadata) : List (Key × Partition) :=
  objects.foldl (groupStep keyFn prefFn pat) []

/-- `groupByPattern` (partition.go 75-113): group by leftmost regex
match, then sort the groups by prefix ascending. -/
def groupByPattern (objects : List ObjectMetadata) (patName : Key) (s : Shape) :
    List Partition :=
  sortByLe (fun p q => lexLe p.pref q.pref)
    ((groupFold (fun o => findFirst s o.key) id patName objects).map Prod.snd)

/-- Shape of `year=(\d{4})/month=(\d{2})/day=(\d{2})`. -/
def shapeYMDeq : Shape :=
  lits "year=" ++ digs 4 ++ lits "/month=" ++ digs 2 ++ lits "/day=" ++ digs 2

/-- Shape of `year=(\d{4})/month=(\d{2})`. -/
def shapeYMeq : Shape := lits "year=" ++ digs 4 ++ lits "/month=" ++ digs 2

/-- Shape of `(\d{4})/(\d{2})/(\d{2})`. -/
def shapeYMDslash : Shape := digs 4 ++ lits "/" ++ digs 2 ++ lits "/" ++ digs 2

/-- Shape of `(\d{4})/(\d{2})`. -/
def shapeYMslash : Shape := digs 4 ++ lits "/" ++ digs 2

/-- Shape of `(\d{4})-(\d{2})-(\d{2})`. -/
def shapeYMDdash : Shape := digs 4 ++ lits "-" ++ digs 2 ++ lits "-" ++ digs 2

/-- Shape of `dt=(\d{4})-(\d{2})-(\d{2})`. -/
def shapeDT : Shape := lits "dt=" ++ shapeYMDdash

def dtName : Key := "dt=YYYY-MM-DD".toList

/-- The six date patterns of `detectDatePartitions`, in source order. -/
def datePatterns : List (Key × Shape) :=
  [ ("year=YYYY/month=MM/day=DD".toList, shapeYMDeq),
    ("year=YYYY/month=MM".toList, shapeYMeq),
    ("YYYY/MM/DD".toList, shapeYMDslash),
    ("YYYY/MM".toList, shapeYMslash),
    ("YYYY-MM-DD".toList, shapeYMDdash),
    (dtName, shapeDT) ]

/-- The pattern loop of `detectDatePartitions` (partition.go 55-69).
The accepted-coverage test `float64(totalMatched)/float64(len(objects)) > 0.5`
is embedded as `2 * totalMatched > len(objects)`, which is equivalent for
all counts below `2^52` (see the header comment). -/
def detectDatePartitionsGo (objects : List ObjectMetadata) :
    List (Key × Shape) → List Partition
  | [] => []
  | p :: rest =>
      let parts := groupByPattern objects p.1 p.2
      if 0 < parts.length then
        let totalMatched := (parts.map (fun q => q.objectCount)).sum
        if 2 * totalMatched > objects.length then parts
        else detectDatePartitionsGo objects rest
      else detectDatePartitionsGo objects rest

/-- `detectDatePartitions` (partition.go 42-72). -/
def detectDatePartitions (objects : List ObjectMetadata) : List Partition :=
  detectDatePartitionsGo objects datePatterns

/-- The hierarchical group key: `strings.Split(key, "/")` has more than
one part exactly when the key contains a `/`, and `parts[0]` is the
substring before the first `/`. -/
def hierKeyOf (o : ObjectMetadata) : Option Key :=
  if '/' ∈ o.key then some (o.key.takeWhile (fun c => c ≠ '/')) else none

def hierPat : Key := "hierarchical (top-level prefix)".toList

/-- `detectHierarchicalPartitions` (partition.go 116-159): group keys by
their top-level prefix, return nothing unless more than one group, else
sort by object count descending. -/
def detectHierarchicalPartitions (objects : List ObjectMetadata) : List Partition :=
  let m := groupFold hierKeyOf (fun k => k ++ ['/']) hierPat objects
  if m.length ≤ 1 then []
  else sortByLe (fun p q => decide (q.objectCount ≤ p.objectCount)) (m.map Prod.snd)

/-- `AnalyzePartitions` (partition.go 20-39). -/
def AnalyzePartitions (objects : List ObjectMetadata) : List Partition :=
  if objects = [] then []
  else
    let dp := detectDatePartitions objects
    if dp = [] then detectHierarchicalPartitions objects else dp

/-- Number of objects whose key matches the shape somewhere (the
"objects matched by the pattern" of the coverage definition). -/
def countMatched (objects : List ObjectMetadata) (s : Shape) : Nat :=
  objects.countP (fun o => hasMatch s o.key)

/-- Modelled from the spec's acceptance condition: coverage (matched
objects over total objects, as an exact ratio) strictly exceeds 0.5. -/
def coverageOK (objects : List ObjectMetadata) (s : Shape) : Bool :=
  decide ((countMatched objects s : ℚ) / (objects.length : ℚ) > 1 / 2)

/-- Sum of the per-group object counts of a grouping map. -/
def sumCounts (m : List (Key × Partition)) : Nat :=
  (m.map (fun e => e.2.objectCount)).sum

/-- Count held by the first entry with the given key (0 if absent). -/
def accCount : List (Key × Partition) → Key → Nat
  | [], _ => 0
  | (k', p) :: rest, k => if k' = k then p.objectCount else accCount rest k

/-- `types.StorageClassStats`. -/
structure StorageClassStats where
  count : Nat
  size : Int
deriving Repr, DecidableEq

/-- The aggregate part of `types.BucketSummary` built by `listObjects`
(name, region, creation date and cost are filled elsewhere). -/
structure BucketSummary where
  totalObjects : Nat
  totalSize : Int
  storageClasses : List (Key × StorageClassStats)
deriving Repr, DecidableEq

def standardClass : Key := "STANDARD".toList

/-- The storage-class substitution of bucket.go 106-109: an empty class
string becomes `"STANDARD"`. -/
def normClass (sc : Key) : Key := if sc = [] then standardClass else sc

/-- Bump the per-class statistics map (bucket.go 116-119). -/
def bumpClass (k : Key) (sz : Int) :
    List (Key × StorageClassStats) → List (Key × StorageClassStats)
  | [] => [(k, ⟨1, sz⟩)]
  | (k', s) :: rest =>
      if k' = k then (k', ⟨s.count + 1, s.size + sz⟩) :: rest
      else (k', s) :: bumpClass k sz rest

/-- The aggregation performed by `listObjects` (bucket.go 103-131) over
the object records of one bucket: totals and per-class statistics.
Pagination and the record limit only control which records appear in the
input collection. -/
def bucketStep (s : BucketSummary) (o : ObjectMetadata) : BucketSummary :=
  { totalObjects := s.totalObjects + 1,
    totalSize := s.totalSize + o.size,
    storageClasses := bumpClass (normClass o.storageClass) o.size s.storageClasses }

def listObjects (objects : List ObjectMetadata) : BucketSummary :=
  objects.foldl bucketStep ⟨0, 0, []⟩

/-- Count looked up in the per-class map (0 if the class is absent). -/
def classCountOf : List (Key × StorageClassStats) → Key → Nat
  | [], _ => 0
  | (k', s) :: rest, k => if k' = k then s.count else classCountOf rest k

/-- The price table of `calculateCost` (bucket.go 150-158), in exact
rationals: 0.023, 0.023, 0.0125, 0.01, 0.004, 0.004, 0.00099 per GiB. -/
def pricing : List (Key × ℚ) :=
  [ ("STANDARD".toList, 23 / 1000),
    ("INTELLIGENT_TIERING".toList, 23 / 1000),
    ("STANDARD_IA".toList, 125 / 10000),
    ("ONEZONE_IA".toList, 1 / 100),
    ("GLACIER".toList, 4 / 1000),
    ("GLACIER_IR".toList, 4 / 1000),
    ("DEEP_ARCHIVE".toList, 99 / 100000) ]

def lookupPrice (k : Key) : Option ℚ :=
  (pricing.find? (fun e => e.1 = k)).map Prod.snd

/-- Price per GiB used for a class: the table entry, defaulting to the
`"STANDARD"` price for unknown class names (bucket.go 163-168). -/
def priceOf (k : Key) : ℚ := (lookupPrice k).getD (23 / 1000)

/-- `calculateCost` (bucket.go 148-172), with `float64` arithmetic
modelled exactly in `ℚ`: bytes divided by `2^30`, times the class price,
summed over the per-class map. -/
def calculateCost (storageClasses : List (Key × StorageClassStats)) : ℚ :=
  storageClasses.foldl
    (fun acc e => acc + (e.2.size : ℚ) / (1024 * 1024 * 1024) * priceOf e.1) 0

/-- `types.SizeBucket`. -/
structure SizeBucket where
  label : Key
  min : Int
  max : Int
  count : Nat
deriving Repr, DecidableEq

/-- The five histogram buckets of `generateSizeDistribution`
(metadata.go 73-79); `max = -1` marks the unbounded last bucket. -/
def initBuckets : List SizeBucket :=
  [ ⟨"0-1KB".toList, 0, 1024, 0⟩,
    ⟨"1KB-1MB".toList, 1024, 1024 * 1024, 0⟩,
    ⟨"1MB-100MB".toList, 1024 * 1024, 100 * 1024 * 1024, 0⟩,
    ⟨"100MB-1GB".toList, 100 * 1024 * 1024, 1024 * 1024 * 1024, 0⟩,
    ⟨"1GB+".toList, 1024 * 1024 * 1024, -1, 0⟩ ]

/-- The bucket test of metadata.go 83-94, on the bounds alone. -/
def boundsMatch (b : Int × Int) (size : Int) : Bool :=
  if b.2 = -1 then decide (b.1 ≤ size)
  else decide (b.1 ≤ size) && decide (size < b.2)

def bucketMatches (b : SizeBucket) (size : Int) : Bool := boundsMatch (b.min, b.max) size

/-- Place one object: increment the first bucket whose bounds contain
its size, then stop (the `break` in metadata.go 81-96). -/
def placeObject : List SizeBucket → Int → List SizeBucket
  | [], _ => []
  | b :: bs, size =>
      if bucketMatches b size then { b with count := b.count + 1 } :: bs
      else b :: placeObject bs size

/-- `generateSizeDistribution` (metadata.go 72-99). -/
def generateSizeDistribution (objects : List ObjectMetadata) : List SizeBucket :=
  objects.foldl (fun bs o => placeObject bs o.size) initBuckets

/-- `filepath.Base` on Linux: empty path gives ".", otherwise strip
trailing slashes, keep the part after the last remaining slash, and an
all-slash path gives "/". -/
def baseName (path : Key) : Key :=
  if path = [] then ['.']
  else
    let p := (path.reverse.dropWhile (fun c => c = '/')).reverse
    let q := (p.reverse.takeWhile (fun c => c ≠ '/')).reverse
    if q = [] then ['/'] else q

/-- `filepath.Ext`: the suffix of the path starting at the final dot of
the final path element, empty when that element has no dot. -/
def extOf (path : Key) : Key :=
  let r := path.reverse.takeWhile (fun c => c ≠ '/')
  if '.' ∈ r then ((r.takeWhile (fun c => c ≠ '.')) ++ ['.']).reverse else []

/-- `strings.HasSuffix(key, "/")`. -/
def endsWithSlash (key : Key) : Bool :=
  match key.reverse with
  | '/' :: _ => true
  | _ => false

/-- `getFileExtension` (metadata.go 53-69).  `strings.ToLower` is
modelled by `Char.toLower` per character; the two agree on ASCII, which
covers every classification the claims mention. -/
def getFileExtension (key : Key) : Key :=
  let base := baseName key
  let ext := extOf base
  if ext = [] then
    if endsWithSlash key then "[directory]".toList
    else "[no extension]".toList
  else
    ((if ext.head? = some '.' then ext.tail else ext).map Char.toLower)

/-- Bump a file-type counter in the frequency map (metadata.go 35). -/
def bumpCount (k : Key) : List (Key × Nat) → List (Key × Nat)
  | [] => [(k, 1)]
  | (k', n) :: rest =>
      if k' = k then (k', n + 1) :: rest else (k', n) :: bumpCount k rest

structure DateRange where
  earliest : Int
  latest : Int
deriving Repr, DecidableEq

/-- The per-object min/max update of metadata.go 38-43
(`Before` is `<`, `After` is `>`). -/
def rangeStep (dr : DateRange) (o : ObjectMetadata) : DateRange :=
  { earliest := if o.lastModified < dr.earliest then o.lastModified else dr.earliest,
    latest := if dr.latest < o.lastModified then o.lastModified else dr.latest }

def foldRange (objects : List ObjectMetadata) (init : DateRange) : DateRange :=
  objects.foldl rangeStep init

/-- `types.MetadataSummary`. -/
structure MetadataSummary where
  objects : List ObjectMetadata
  fileTypeStats : List (Key × Nat)
  sizeDistribution : List SizeBucket
  dateRange : DateRange
deriving Repr, DecidableEq

/-- `AnalyzeMetadata` (metadata.go 19-50).  The source interleaves the
extension counting and the range update in one loop; the two folds here
compute the same two results. -/
def AnalyzeMetadata (objects : List ObjectMetadata) : MetadataSummary :=
  let init : DateRange :=
    match objects with
    | [] => ⟨0, 0⟩
    | o :: _ => ⟨o.lastModified, o.lastModified⟩
  { objects := objects,
    fileTypeStats := objects.foldl (fun m o => bumpCount (getFileExtension o.key) m) [],
    sizeDistribution := generateSizeDistribution objects,
    dateRange := foldRange objects init }

/-! Derived notions used to state and prove the properties. -/

/-- Keys of a grouping map. -/
def keysOf (m : List (Key × Partition)) : List Key := m.map Prod.fst

/-- Structural facts that hold of every entry a grouping map contains. -/
def GoodEntry (prefFn : Key → Key) (pat : Key) (e : Key × Partition) : Prop :=
  e.2.pref = prefFn e.1 ∧ e.2.pattern = pat ∧ 0 < e.2.objectCount

/-- The raw hierarchical grouping map (partition.go 117-141), before
the size test and the sort. -/
def hierGroups (objects : List ObjectMetadata) : List (Key × Partition) :=
  groupFold hierKeyOf (fun k => k ++ ['/']) hierPat objects

/-- Sum of per-class object counts of a storage-class map. -/
def sumClassCounts (m : List (Key × StorageClassStats)) : Nat :=
  (m.map (fun e => e.2.count)).sum

/-- Sum of per-class byte totals of a storage-class map. -/
def sumClassSizes (m : List (Key × StorageClassStats)) : Int :=
  (m.map (fun e => e.2.size)).sum

/-- The bounds of a histogram, forgetting labels and counts. -/
def boundsOf (bs : List SizeBucket) : List (Int × Int) :=
  bs.map (fun b => (b.min, b.max))

/-- Total object count of a histogram. -/
def sumB (bs : List SizeBucket) : Nat := (bs.map (fun b => b.count)).sum

/-! Concrete inputs used to exercise the theorems. -/

def demoObj (k : String) (sz : Int) (lm : Int) (sc : String) : ObjectMetadata :=
  { key := k.toList, size := sz, lastModified := lm, storageClass := sc.toList, etag := [] }

/-- Two objects, exactly half of which carry a `YYYY-MM-DD` key. -/
def demoHalf : List ObjectMetadata :=
  [demoObj "2023-01-15/a.csv" 1 0 "", demoObj "junk" 1 0 ""]

/-- Three objects in two top-level prefixes and no date structure. -/
def demoHier : List ObjectMetadata :=
  [demoObj "logs/a" 1 0 "", demoObj "logs/b" 2 0 "", demoObj "tmp/c" 3 0 ""]

/-- One object of exactly 1024 bytes. -/
def demoSizes : List ObjectMetadata := [demoObj "a.bin" 1024 0 ""]

/-- Three objects with distinct timestamps. -/
def demoMeta : List ObjectMetadata :=
  [demoObj "a" 1 5 "", demoObj "b" 1 3 "", demoObj "c" 1 9 ""]

/-! ### Sorting lemmas -/

theorem insertLe_perm {α : Type} (le : α → α → Bool) (a : α) (l : List α) :
    (insertLe le a l).Perm (a :: l) := by
  induction l with
  | nil => simp [insertLe]
  | cons b l ih =>
    simp only [insertLe]
    split
    · exact List.Perm.refl _
    · exact (ih.cons b).trans (List.Perm.swap a b l)

theorem sortByLe_perm {α : Type} (le : α → α → Bool) (l : List α) :
    (sortByLe le l).Perm l := by
  induction l with
  | nil => simp [sortByLe]
  | cons a l ih => exact (insertLe_perm le a (sortByLe le l)).trans (ih.cons a)

theorem mem_sortByLe {α : Type} (le : α → α → Bool) (l : List α) (x : α) :
    x ∈ sortByLe le l ↔ x ∈ l :=
  (sortByLe_perm le l).mem_iff

theorem length_sortByLe {α : Type} (le : α → α → Bool) (l : List α) :
    (sortByLe le l).length = l.length :=
  (sortByLe_perm le l).length_eq

theorem pairwise_insertLe {α : Type} (le : α → α → Bool)
    (htot : ∀ x y, le x y = true ∨ le y x = true)
    (htrans : ∀ x y z, le x y = true → le y z = true → le x z = true)
    (a : α) (l : List α) (h : l.Pairwise (fun x y => le x y = true)) :
    (insertLe le a l).Pairwise (fun x y => le x y = true) := by
  induction l with
  | nil => simp [insertLe]
  | cons b l ih =>
    rcases List.pairwise_cons.mp h with ⟨hb, hl⟩
    simp only [insertLe]
    split
    · rename_i hab
      refine List.pairwise_cons.mpr ⟨?_, h⟩
      intro y hy
      rcases List.mem_cons.mp hy with rfl | hy'
      · exact hab
      · exact htrans a b y hab (hb y hy')
    · rename_i hab
      have hba : le b a = true := (htot a b).resolve_left hab
      refine List.pairwise_cons.mpr ⟨?_, ih hl⟩
      intro y hy
      have hy2 : y = a ∨ y ∈ l := by
        have := (insertLe_perm le a l).mem_iff.mp hy
        simpa using this
      rcases hy2 with rfl | hy'
      · exact hba
      · exact hb y hy'

theorem pairwise_sortByLe {α : Type} (le : α → α → Bool)
    (htot : ∀ x y, le x y = true ∨ le y x = true)
    (htrans : ∀ x y z, le x y = true → le y z = true → le x z = true)
    (l : List α) :
    (sortByLe le l).Pairwise (fun x y => le x y = true) := by
  induction l with
  | nil => simp [sortByLe]
  | cons a l ih => exact pairwise_insertLe le htot htrans a _ ih

/-! ### Lexicographic-order lemmas -/

theorem lexLe_total (a b : Key) : lexLe a b = true ∨ lexLe b a = true := by
  induction a generalizing b with
  | nil => left; rfl
  | cons x as ih =>
    cases b with
    | nil => right; rfl
    | cons y bs =>
      rcases lt_trichotomy x y with h | h | h
      · left; simp [lexLe, h]
      · subst h
        rcases ih bs with h2 | h2
        · left; simp [lexLe, lt_irrefl, h2]
        · right; simp [lexLe, lt_irrefl, h2]
      · right; simp [lexLe, h]

theorem lexLe_cons_iff (x y : Char) (as bs : Key) :
    lexLe (x :: as) (y :: bs) = true ↔ x < y ∨ (x = y ∧ lexLe as bs = true) := by
  simp only [lexLe]
  rcases lt_trichotomy x y with h | h | h
  · simp [h]
  · subst h; simp [lt_irrefl]
  · have hnlt : ¬ x < y := lt_asymm h
    have hne : x ≠ y := (ne_of_lt h).symm
    simp [h, hnlt, hne]

theorem lexLe_trans (a b c : Key) (h1 : lexLe a b = true) (h2 : lexLe b c = true) :
    lexLe a c = true := by
  induction a generalizing b c with
  | nil => rfl
  | cons x as ih =>
    cases b with
    | nil => simp [lexLe] at h1
    | cons y bs =>
      cases c with
      | nil => simp [lexLe] at h2
      | cons z cs =>
        rcases (lexLe_cons_iff x y as bs).mp h1 with hxy | ⟨rfl, hab⟩
        · rcases (lexLe_cons_iff y z bs cs).mp h2 with hyz | ⟨rfl, hbc⟩
          · exact (lexLe_cons_iff x z as cs).mpr (Or.inl (lt_trans hxy hyz))
          · exact (lexLe_cons_iff x y as cs).mpr (Or.inl hxy)
        · rcases (lexLe_cons_iff x z bs cs).mp h2 with hyz | ⟨rfl, hbc⟩
          · exact (lexLe_cons_iff x z as cs).mpr (Or.inl hyz)
          · exact (lexLe_cons_iff x x as cs).mpr (Or.inr ⟨rfl, ih bs cs hab hbc⟩)

/-! ### Shape-matching lemmas -/

theorem hasMatch_of_matchAt {s : Shape} {cs : List Char} (h : matchAt s cs = true) :
    hasMatch s cs = true := by
  cases cs with
  | nil => simp [hasMatch, findFirst, h]
  | cons c rest => simp [hasMatch, findFirst, h]

theorem hasMatch_cons {s : Shape} (c : Char) {rest : List Char}
    (h : hasMatch s rest = true) : hasMatch s (c :: rest) = true := by
  simp only [hasMatch, findFirst]
  split
  · simp
  · exact h

theorem matchAt_lit {c : Char} {ts : Shape} {cs : List Char}
    (h : matchAt (Tok.lit c :: ts) cs = true) :
    ∃ rest, cs = c :: rest ∧ matchAt ts rest = true := by
  cases cs with
  | nil => simp [matchAt] at h
  | cons a rest =>
    simp only [matchAt, Bool.and_eq_true, decide_eq_true_eq] at h
    exact ⟨rest, by rw [h.1], h.2⟩

theorem shapeDT_eq : shapeDT = Tok.lit 'd' :: Tok.lit 't' :: Tok.lit '=' :: shapeYMDdash := by
  rfl

/-- Any key with a `dt=YYYY-MM-DD` match also has a `YYYY-MM-DD` match:
the date part of a `dt=` match is itself a match of the plain pattern. -/
theorem hasMatch_dt_imp_dash (cs : List Char) (h : hasMatch shapeDT cs = true) :
    hasMatch shapeYMDdash cs = true := by
  induction cs with
  | nil =>
    exfalso
    rw [shapeDT_eq] at h
    simp [hasMatch, findFirst, matchAt] at h
  | cons c rest ih =>
    simp only [hasMatch, findFirst] at h
    by_cases hm : matchAt shapeDT (c :: rest) = true
    · rw [shapeDT_eq] at hm
      obtain ⟨r1, e1, m1⟩ := matchAt_lit hm
      obtain ⟨r2, e2, m2⟩ := matchAt_lit m1
      obtain ⟨r3, e3, m3⟩ := matchAt_lit m2
      have h3 : hasMatch shapeYMDdash r3 = true := hasMatch_of_matchAt m3
      have hcr : c :: rest = 'd' :: 't' :: '=' :: r3 := by rw [e1, e2, e3]
      rw [hcr]
      exact hasMatch_cons _ (hasMatch_cons _ (hasMatch_cons _ h3))
    · rw [if_neg hm] at h
      exact hasMatch_cons _ (ih h)

theorem countMatched_dt_le_dash (objects : List ObjectMetadata) :
    countMatched objects shapeDT ≤ countMatched objects shapeYMDdash :=
  List.countP_mono_left (fun o _ h => hasMatch_dt_imp_dash o.key h)

/-! ### Grouping-map lemmas -/

theorem addToGroup_ne_nil (prefFn : Key → Key) (pat : Key) (k : Key) (o : ObjectMetadata)
    (m : List (Key × Partition)) : addToGroup prefFn pat k o m ≠ [] := by
  cases m with
  | nil => simp [addToGroup]
  | cons e rest =>
    obtain ⟨k', p⟩ := e
    simp only [addToGroup]
    split <;> simp

theorem addToGroup_accCount (prefFn : Key → Key) (pat : Key) (k₀ : Key) (o : ObjectMetadata)
    (m : List (Key × Partition)) (k : Key) :
    accCount (addToGroup prefFn pat k₀ o m) k =
      accCount m k + (if k₀ = k then 1 else 0) := by
  induction m with
  | nil =>
    by_cases h : k₀ = k <;> simp [addToGroup, accCount, h]
  | cons e rest ih =>
    obtain ⟨k', p⟩ := e
    simp only [addToGroup]
    by_cases h1 : k' = k₀
    · subst h1
      simp only [if_pos rfl, accCount]
      by_cases h2 : k' = k
      · subst h2; simp [accCount]
      · simp [accCount, h2]
    · rw [if_neg h1]
      simp only [accCount]
      by_cases h2 : k' = k
      · subst h2
        have : ¬ k₀ = k' := fun he => h1 he.symm
        simp [this]
      · simp [h2, ih]

theorem addToGroup_sumCounts (prefFn : Key → Key) (pat : Key) (k₀ : Key) (o : ObjectMetadata)
    (m : List (Key × Partition)) :
    sumCounts (addToGroup prefFn pat k₀ o m) = sumCounts m + 1 := by
  induction m with
  | nil => simp [addToGroup, sumCounts]
  | cons e rest ih =>
    obtain ⟨k', p⟩ := e
    simp only [addToGroup]
    split
    · simp [sumCounts]; omega
    · simp only [sumCounts, List.map_cons, List.sum_cons] at ih ⊢
      omega

theorem addToGroup_keysOf (prefFn : Key → Key) (pat : Key) (k₀ : Key) (o : ObjectMetadata)
    (m : List (Key × Partition)) :
    keysOf (addToGroup prefFn pat k₀ o m) =
      if k₀ ∈ keysOf m then keysOf m else keysOf m ++ [k₀] := by
  induction m with
  | nil => simp [addToGroup, keysOf]
  | cons e rest ih =>
    obtain ⟨k', p⟩ := e
    simp only [addToGroup]
    by_cases h1 : k' = k₀
    · subst h1
      have hmem : k' ∈ keysOf ((k', p) :: rest) := by
        simp only [keysOf, List.map_cons]
        exact List.mem_cons_self _ _
      rw [if_pos rfl, if_pos hmem]
      simp only [keysOf, List.map_cons]
    · rw [if_neg h1]
      simp only [keysOf, List.map_cons] at ih ⊢
      have hne : ¬ k₀ = k' := fun he => h1 he.symm
      by_cases h2 : k₀ ∈ keysOf rest
      · simp only [keysOf] at h2
        simp [h2, hne, ih]
      · simp only [keysOf] at h2
        simp [h2, hne, ih]

theorem addToGroup_nodup (prefFn : Key → Key) (pat : Key) (k₀ : Key) (o : ObjectMetadata)
    (m : List (Key × Partition)) (h : (keysOf m).Nodup) :
    (keysOf (addToGroup prefFn pat k₀ o m)).Nodup := by
  rw [addToGroup_keysOf]
  split
  · exact h
  · rename_i hnm
    rw [List.nodup_append]
    refine ⟨h, List.nodup_singleton k₀, ?_⟩
    intro x hx hx1
    rcases List.mem_singleton.mp hx1 with rfl
    exact hnm hx

theorem addToGroup_good (prefFn : Key → Key) (pat : Key) (k₀ : Key) (o : ObjectMetadata)
    (m : List (Key × Partition)) (h : ∀ e ∈ m, GoodEntry prefFn pat e) :
    ∀ e ∈ addToGroup prefFn pat k₀ o m, GoodEntry prefFn pat e := by
  induction m with
  | nil =>
    intro e he
    simp only [addToGroup, List.mem_singleton] at he
    subst he
    exact ⟨rfl, rfl, Nat.one_pos⟩
  | cons f rest ih =>
    obtain ⟨k', p⟩ := f
    intro e he
    have hh : GoodEntry prefFn pat (k', p) := h _ (List.mem_cons_self _ _)
    simp only [addToGroup] at he
    split at he
    · rcases List.mem_cons.mp he with rfl | hr
      · exact ⟨hh.1, hh.2.1, Nat.lt_of_lt_of_le hh.2.2 (Nat.le_succ _)⟩
      · exact h _ (List.mem_cons_of_mem _ hr)
    · rcases List.mem_cons.mp he with rfl | hr
      · exact hh
      · exact ih (fun e' he' => h _ (List.mem_cons_of_mem _ he')) e hr

theorem accCount_of_mem (m : List (Key × Partition)) (hnd : (keysOf m).Nodup)
    (k : Key) (p : Partition) (hmem : (k, p) ∈ m) :
    accCount m k = p.objectCount := by
  induction m with
  | nil => simp at hmem
  | cons e rest ih =>
    obtain ⟨k', p'⟩ := e
    simp only [keysOf, List.map_cons, List.nodup_cons] at hnd
    rcases List.mem_cons.mp hmem with he | hr
    · obtain ⟨h1, h2⟩ := Prod.mk.inj he
      subst h1
      subst h2
      simp [accCount]
    · have hkne : k' ≠ k := by
        intro he
        subst he
        exact hnd.1 (List.mem_map_of_mem Prod.fst hr)
      simp only [accCount, if_neg hkne]
      exact ih hnd.2 hr

theorem accCount_of_not_mem (m : List (Key × Partition)) (k : Key)
    (h : k ∉ keysOf m) : accCount m k = 0 := by
  induction m with
  | nil => rfl
  | cons e rest ih =>
    obtain ⟨k', p'⟩ := e
    simp only [keysOf, List.map_cons, List.mem_cons, not_or] at h
    have : k' ≠ k := fun he => h.1 he.symm
    simp only [accCount, if_neg this]
    exact ih h.2

/-! ### Fold-level grouping lemmas -/

theorem foldGroup_accCount (keyFn : ObjectMetadata → Option Key) (prefFn : Key → Key)
    (pat : Key) (l : List ObjectMetadata) :
    ∀ (acc : List (Key × Partition)) (k : Key),
    accCount (l.foldl (groupStep keyFn prefFn pat) acc) k =
      accCount acc k + l.countP (fun o => decide (keyFn o = some k)) := by
  induction l with
  | nil => intro acc k; simp
  | cons o l ih =>
    intro acc k
    rw [List.foldl_cons, ih, List.countP_cons]
    cases hk : keyFn o with
    | none =>
      simp only [groupStep, hk]
      simp [hk]
    | some k₀ =>
      simp only [groupStep, hk]
      rw [addToGroup_accCount]
      by_cases h : k₀ = k
      · subst h
        simp [hk]
        omega
      · simp [hk, h]

theorem foldGroup_sumCounts (keyFn : ObjectMetadata → Option Key) (prefFn : Key → Key)
    (pat : Key) (l : List ObjectMetadata) :
    ∀ (acc : List (Key × Partition)),
    sumCounts (l.foldl (groupStep keyFn prefFn pat) acc) =
      sumCounts acc + l.countP (fun o => (keyFn o).isSome) := by
  induction l with
  | nil => intro acc; simp
  | cons o l ih =>
    intro acc
    rw [List.foldl_cons, ih, List.countP_cons]
    cases hk : keyFn o with
    | none => simp [groupStep, hk]
    | some k₀ =>
      simp only [groupStep, hk]
      rw [addToGroup_sumCounts]
      simp [hk]
      omega

theorem foldGroup_nodup (keyFn : ObjectMetadata → Option Key) (prefFn : Key → Key)
    (pat : Key) (l : List ObjectMetadata) :
    ∀ (acc : List (Key × Partition)), (keysOf acc).Nodup →
    (keysOf (l.foldl (groupStep keyFn prefFn pat) acc)).Nodup := by
  induction l with
  | nil => intro acc h; rw [List.foldl_nil]; exact h
  | cons o l ih =>
    intro acc h
    rw [List.foldl_cons]
    apply ih
    cases hk : keyFn o with
    | none => simp only [groupStep, hk]; exact h
    | some k₀ =>
      simp only [groupStep, hk]
      exact addToGroup_nodup _ _ _ _ _ h

theorem foldGroup_good (keyFn : ObjectMetadata → Option Key) (prefFn : Key → Key)
    (pat : Key) (l : List ObjectMetadata) :
    ∀ (acc : List (Key × Partition)), (∀ e ∈ acc, GoodEntry prefFn pat e) →
    ∀ e ∈ l.foldl (groupStep keyFn prefFn pat) acc, GoodEntry prefFn pat e := by
  induction l with
  | nil => intro acc h; rw [List.foldl_nil]; exact h
  | cons o l ih =>
    intro acc h
    rw [List.foldl_cons]
    apply ih
    cases hk : keyFn o with
    | none => simp only [groupStep, hk]; exact h
    | some k₀ =>
      simp only [groupStep, hk]
      exact addToGroup_good _ _ _ _ _ h

theorem groupFold_accCount (keyFn : ObjectMetadata → Option Key) (prefFn : Key → Key)
    (pat : Key) (objects : List ObjectMetadata) (k : Key) :
    accCount (groupFold keyFn prefFn pat objects) k =
      objects.countP (fun o => decide (keyFn o = some k)) := by
  show accCount (objects.foldl (groupStep keyFn prefFn pat) []) k = _
  have h := foldGroup_accCount keyFn prefFn pat objects [] k
  simpa [accCount] using h

theorem groupFold_nodupKeys (keyFn : ObjectMetadata → Option Key) (prefFn : Key → Key)
    (pat : Key) (objects : List ObjectMetadata) :
    (keysOf (groupFold keyFn prefFn pat objects)).Nodup := by
  show (keysOf (objects.foldl (groupStep keyFn prefFn pat) [])).Nodup
  exact foldGroup_nodup keyFn prefFn pat objects [] List.nodup_nil

theorem groupFold_goodEntries (keyFn : ObjectMetadata → Option Key) (prefFn : Key → Key)
    (pat : Key) (objects : List ObjectMetadata) :
    ∀ e ∈ groupFold keyFn prefFn pat objects, GoodEntry prefFn pat e := by
  show ∀ e ∈ objects.foldl (groupStep keyFn prefFn pat) [], GoodEntry prefFn pat e
  exact foldGroup_good keyFn prefFn pat objects []
    (fun e he => absurd he (List.not_mem_nil e))

theorem groupFold_mem_spec (keyFn : ObjectMetadata → Option Key) (prefFn : Key → Key)
    (pat : Key) (objects : List ObjectMetadata) (k : Key) (p : Partition)
    (hmem : (k, p) ∈ groupFold keyFn prefFn pat objects) :
    p.pref = prefFn k ∧ p.pattern = pat ∧
      p.objectCount = objects.countP (fun o => decide (keyFn o = some k)) := by
  have hgood := groupFold_goodEntries keyFn prefFn pat objects _ hmem
  have hacc := accCount_of_mem _ (groupFold_nodupKeys keyFn prefFn pat objects) k p hmem
  exact ⟨hgood.1, hgood.2.1, by rw [← hacc, groupFold_accCount]⟩

theorem groupFold_sumCounts (keyFn : ObjectMetadata → Option Key) (prefFn : Key → Key)
    (pat : Key) (objects : List ObjectMetadata) :
    sumCounts (groupFold keyFn prefFn pat objects) =
      objects.countP (fun o => (keyFn o).isSome) := by
  show sumCounts (objects.foldl (groupStep keyFn prefFn pat) []) = _
  have h := foldGroup_sumCounts keyFn prefFn pat objects []
  simpa [sumCounts] using h

theorem groupFold_eq_nil_iff (keyFn : ObjectMetadata → Option Key) (prefFn : Key → Key)
    (pat : Key) (objects : List ObjectMetadata) :
    groupFold keyFn prefFn pat objects = [] ↔
      objects.countP (fun o => (keyFn o).isSome) = 0 := by
  constructor
  · intro h
    have hsum := groupFold_sumCounts keyFn prefFn pat objects
    rw [h] at hsum
    simpa [sumCounts] using hsum.symm
  · intro h
    cases hm : groupFold keyFn prefFn pat objects with
    | nil => rfl
    | cons e rest =>
      exfalso
      have hgood := groupFold_goodEntries keyFn prefFn pat objects e
        (by rw [hm]; exact List.mem_cons_self _ _)
      have hpos := hgood.2.2
      have hsum := groupFold_sumCounts keyFn prefFn pat objects
      rw [hm, h] at hsum
      simp only [sumCounts, List.map_cons, List.sum_cons] at hsum
      omega

theorem groupFold_mem_keys_iff (keyFn : ObjectMetadata → Option Key) (prefFn : Key → Key)
    (pat : Key) (objects : List ObjectMetadata) (k : Key) :
    k ∈ keysOf (groupFold keyFn prefFn pat objects) ↔
      0 < objects.countP (fun o => decide (keyFn o = some k)) := by
  constructor
  · intro hmem
    obtain ⟨e, he, hek⟩ := List.mem_map.mp hmem
    obtain ⟨k', p⟩ := e
    have hmem2 : (k, p) ∈ groupFold keyFn prefFn pat objects := by
      have hk' : k' = k := hek
      rw [← hk']
      exact he
    have hgood := groupFold_goodEntries keyFn prefFn pat objects _ hmem2
    have hacc := accCount_of_mem _ (groupFold_nodupKeys keyFn prefFn pat objects) k p hmem2
    rw [← groupFold_accCount keyFn prefFn pat objects k, hacc]
    exact hgood.2.2
  · intro hpos
    by_contra hmem
    have hz := accCount_of_not_mem _ k hmem
    rw [groupFold_accCount] at hz
    omega

/-! ### groupByPattern and the date-pattern loop -/

theorem sum_map_sortByLe {α : Type} (le : α → α → Bool) (f : α → Nat) (l : List α) :
    ((sortByLe le l).map f).sum = (l.map f).sum :=
  ((sortByLe_perm le l).map f).sum_eq

theorem groupByPattern_sum (objects : List ObjectMetadata) (patName : Key) (s : Shape) :
    ((groupByPattern objects patName s).map (fun q => q.objectCount)).sum =
      countMatched objects s := by
  rw [groupByPattern, sum_map_sortByLe, List.map_map]
  have h := groupFold_sumCounts (fun o => findFirst s o.key) id patName objects
  simpa [sumCounts, countMatched, hasMatch, Function.comp] using h

theorem groupByPattern_length (objects : List ObjectMetadata) (patName : Key) (s : Shape) :
    (groupByPattern objects patName s).length =
      (groupFold (fun o => findFirst s o.key) id patName objects).length := by
  rw [groupByPattern, length_sortByLe, List.length_map]

theorem groupByPattern_eq_nil_iff (objects : List ObjectMetadata) (patName : Key) (s : Shape) :
    groupByPattern objects patName s = [] ↔ countMatched objects s = 0 := by
  constructor
  · intro h
    have := groupByPattern_sum objects patName s
    rw [h] at this
    simpa using this.symm
  · intro h
    have hnil : groupFold (fun o => findFirst s o.key) id patName objects = [] := by
      rw [groupFold_eq_nil_iff]
      simpa [countMatched, hasMatch] using h
    rw [groupByPattern, hnil]
    rfl

theorem groupByPattern_mem (objects : List ObjectMetadata) (patName : Key) (s : Shape)
    (q : Partition) (hq : q ∈ groupByPattern objects patName s) :
    q.pattern = patName ∧
      q.objectCount = objects.countP (fun o => decide (findFirst s o.key = some q.pref)) := by
  rw [groupByPattern, mem_sortByLe] at hq
  obtain ⟨e, he, hek⟩ := List.mem_map.mp hq
  obtain ⟨k, p⟩ := e
  have hq2 : p = q := hek
  subst hq2
  have hspec := groupFold_mem_spec (fun o => findFirst s o.key) id patName objects k p he
  have hk : p.pref = k := hspec.1
  refine ⟨hspec.2.1, ?_⟩
  rw [hk]
  exact hspec.2.2

theorem groupByPattern_sorted (objects : List ObjectMetadata) (patName : Key) (s : Shape) :
    (groupByPattern objects patName s).Pairwise (fun p q => lexLe p.pref q.pref = true) := by
  rw [groupByPattern]
  exact pairwise_sortByLe (fun p q => lexLe p.pref q.pref)
    (fun (x y : Partition) => lexLe_total x.pref y.pref)
    (fun (x y z : Partition) h1 h2 => lexLe_trans x.pref y.pref z.pref h1 h2) _

theorem coverageOK_iff (objects : List ObjectMetadata) (s : Shape) :
    coverageOK objects s = true ↔ 2 * countMatched objects s > objects.length := by
  rw [coverageOK, decide_eq_true_iff]
  rcases Nat.eq_zero_or_pos objects.length with h | h
  · have hcm : countMatched objects s = 0 :=
      Nat.le_antisymm (h ▸ List.countP_le_length _) (Nat.zero_le _)
    rw [h, hcm]
    simp
  · have hn : (0 : ℚ) < (objects.length : ℚ) := by exact_mod_cast h
    rw [gt_iff_lt, lt_div_iff hn]
    constructor
    · intro hlt
      have : (objects.length : ℚ) < 2 * (countMatched objects s : ℚ) := by linarith
      have := this
      rw [gt_iff_lt]
      exact_mod_cast this
    · intro hgt
      have h2 : (objects.length : ℚ) < 2 * (countMatched objects s : ℚ) := by
        exact_mod_cast hgt
      linarith

theorem detectDatePartitionsGo_eq_find (objects : List ObjectMetadata) :
    ∀ pats : List (Key × Shape),
    detectDatePartitionsGo objects pats =
      (match pats.find? (fun p => coverageOK objects p.2) with
       | some p => groupByPattern objects p.1 p.2
       | none => []) := by
  intro pats
  induction pats with
  | nil => rfl
  | cons p rest ih =>
    rw [detectDatePartitionsGo, List.find?_cons]
    by_cases hcov : coverageOK objects p.2 = true
    · rw [hcov]
      have hgt := (coverageOK_iff objects p.2).mp hcov
      have hcm : 0 < countMatched objects p.2 := by omega
      have hlen : 0 < (groupByPattern objects p.1 p.2).length := by
        rcases Nat.eq_zero_or_pos (groupByPattern objects p.1 p.2).length with hz | hp
        · exfalso
          have : groupByPattern objects p.1 p.2 = [] := List.length_eq_zero.mp hz
          rw [groupByPattern_eq_nil_iff] at this
          omega
        · exact hp
      rw [if_pos hlen, groupByPattern_sum, if_pos hgt]
    · have hcovf : coverageOK objects p.2 = false := Bool.not_eq_true _ ▸ Bool.of_not_eq_true hcov
      rw [hcovf]
      have hle : ¬ (2 * countMatched objects p.2 > objects.length) := by
        intro hgt
        exact hcov ((coverageOK_iff objects p.2).mpr hgt)
      by_cases hlen : 0 < (groupByPattern objects p.1 p.2).length
      · rw [if_pos hlen, groupByPattern_sum, if_neg hle]
        exact ih
      · rw [if_neg hlen]
        exact ih

/-! ### Hierarchical-fallback lemmas -/

theorem detectHierarchical_eq (objects : List ObjectMetadata) :
    detectHierarchicalPartitions objects =
      (if (hierGroups objects).length ≤ 1 then []
       else sortByLe (fun p q => decide (q.objectCount ≤ p.objectCount))
              ((hierGroups objects).map Prod.snd)) := rfl

theorem detectHierarchical_nil_of_le_one (objects : List ObjectMetadata)
    (h : (hierGroups objects).length ≤ 1) :
    detectHierarchicalPartitions objects = [] := by
  rw [detectHierarchical_eq, if_pos h]

theorem detectHierarchical_perm (objects : List ObjectMetadata)
    (h : 1 < (hierGroups objects).length) :
    (detectHierarchicalPartitions objects).Perm ((hierGroups objects).map Prod.snd) := by
  rw [detectHierarchical_eq, if_neg (by omega)]
  exact sortByLe_perm _ _

theorem detectHierarchical_sorted (objects : List ObjectMetadata) :
    (detectHierarchicalPartitions objects).Pairwise
      (fun p q => q.objectCount ≤ p.objectCount) := by
  rw [detectHierarchical_eq]
  split
  · exact List.Pairwise.nil
  · have hp := pairwise_sortByLe (fun p q => decide (q.objectCount ≤ p.objectCount))
      (fun (x y : Partition) => by
        rcases Nat.le_total y.objectCount x.objectCount with h | h
        · left; exact decide_eq_true h
        · right; exact decide_eq_true h)
      (fun (x y z : Partition) h1 h2 =>
        decide_eq_true (Nat.le_trans (of_decide_eq_true h2) (of_decide_eq_true h1)))
      ((hierGroups objects).map Prod.snd)
    exact hp.imp (fun h => of_decide_eq_true h)

theorem AnalyzePartitions_eq_date (objects : List ObjectMetadata)
    (h : detectDatePartitions objects ≠ []) :
    AnalyzePartitions objects = detectDatePartitions objects := by
  rw [AnalyzePartitions]
  have hne : objects ≠ [] := by
    intro ho
    subst ho
    exact h rfl
  rw [if_neg hne, if_neg h]

theorem AnalyzePartitions_eq_hier (objects : List ObjectMetadata)
    (h : detectDatePartitions objects = []) :
    AnalyzePartitions objects = detectHierarchicalPartitions objects := by
  rw [AnalyzePartitions]
  by_cases ho : objects = []
  · subst ho
    rw [if_pos rfl]
    rfl
  · rw [if_neg ho, if_pos h]

/-! ### Bucket-aggregation lemmas -/

theorem bumpClass_sumCounts (k : Key) (sz : Int) (m : List (Key × StorageClassStats)) :
    sumClassCounts (bumpClass k sz m) = sumClassCounts m + 1 := by
  induction m with
  | nil => simp [bumpClass, sumClassCounts]
  | cons e rest ih =>
    obtain ⟨k', s⟩ := e
    simp only [bumpClass]
    split
    · simp only [sumClassCounts, List.map_cons, List.sum_cons]
      omega
    · simp only [sumClassCounts, List.map_cons, List.sum_cons] at ih ⊢
      omega

theorem bumpClass_sumSizes (k : Key) (sz : Int) (m : List (Key × StorageClassStats)) :
    sumClassSizes (bumpClass k sz m) = sumClassSizes m + sz := by
  induction m with
  | nil => simp [bumpClass, sumClassSizes]
  | cons e rest ih =>
    obtain ⟨k', s⟩ := e
    simp only [bumpClass]
    split
    · simp only [sumClassSizes, List.map_cons, List.sum_cons]
      omega
    · simp only [sumClassSizes, List.map_cons, List.sum_cons] at ih ⊢
      omega

theorem bumpClass_classCountOf (k : Key) (sz : Int) (m : List (Key × StorageClassStats))
    (k' : Key) :
    classCountOf (bumpClass k sz m) k' =
      classCountOf m k' + (if k = k' then 1 else 0) := by
  induction m with
  | nil =>
    by_cases h : k = k' <;> simp [bumpClass, classCountOf, h]
  | cons e rest ih =>
    obtain ⟨k₁, s⟩ := e
    simp only [bumpClass]
    by_cases h1 : k₁ = k
    · subst h1
      simp only [if_pos rfl, classCountOf]
      by_cases h2 : k₁ = k'
      · subst h2; simp [classCountOf]
      · simp [classCountOf, h2]
    · rw [if_neg h1]
      simp only [classCountOf]
      by_cases h2 : k₁ = k'
      · subst h2
        have : ¬ k = k₁ := fun he => h1 he.symm
        simp [this]
      · simp [h2, ih]

theorem bucketFold_spec (l : List ObjectMetadata) :
    ∀ (acc : BucketSummary),
    (l.foldl bucketStep acc).totalObjects = acc.totalObjects + l.length ∧
    (l.foldl bucketStep acc).totalSize =
      acc.totalSize + (l.map (fun o => o.size)).sum ∧
    sumClassCounts (l.foldl bucketStep acc).storageClasses =
      sumClassCounts acc.storageClasses + l.length ∧
    sumClassSizes (l.foldl bucketStep acc).storageClasses =
      sumClassSizes acc.storageClasses + (l.map (fun o => o.size)).sum ∧
    ∀ k, classCountOf (l.foldl bucketStep acc).storageClasses k =
      classCountOf acc.storageClasses k +
        l.countP (fun o => decide (normClass o.storageClass = k)) := by
  induction l with
  | nil => intro acc; simp
  | cons o l ih =>
    intro acc
    rw [List.foldl_cons]
    obtain ⟨h1, h2, h3, h4, h5⟩ := ih (bucketStep acc o)
    refine ⟨?_, ?_, ?_, ?_, ?_⟩
    · rw [h1]; simp only [bucketStep]; simp; omega
    · rw [h2]; simp only [bucketStep]; simp; omega
    · rw [h3]; simp only [bucketStep, bumpClass_sumCounts]; simp; omega
    · rw [h4]; simp only [bucketStep, bumpClass_sumSizes]; simp; omega
    · intro k
      rw [h5 k]
      simp only [bucketStep, bumpClass_classCountOf, List.countP_cons]
      by_cases h : normClass o.storageClass = k
      · simp [h]; omega
      · simp [h]

/-! ### Histogram lemmas -/

theorem placeObject_boundsOf (bs : List SizeBucket) (s : Int) :
    boundsOf (placeObject bs s) = boundsOf bs := by
  induction bs with
  | nil => rfl
  | cons b rest ih =>
    simp only [placeObject]
    split
    · simp [boundsOf]
    · simp only [boundsOf, List.map_cons] at ih ⊢
      rw [ih]

theorem placeObject_sumB (bs : List SizeBucket) (s : Int)
    (h : bs.any (fun b => bucketMatches b s) = true) :
    sumB (placeObject bs s) = sumB bs + 1 := by
  induction bs with
  | nil => simp at h
  | cons b rest ih =>
    simp only [placeObject]
    by_cases hb : bucketMatches b s = true
    · rw [if_pos hb]
      simp only [sumB, List.map_cons, List.sum_cons]
      omega
    · rw [if_neg hb]
      have hr : rest.any (fun b => bucketMatches b s) = true := by
        simp only [List.any_cons, Bool.or_eq_true] at h
        exact h.resolve_left hb
      simp only [sumB, List.map_cons, List.sum_cons] at ih ⊢
      rw [ih hr]
      omega

theorem any_boundsMatch (bs : List SizeBucket) (s : Int) :
    bs.any (fun b => bucketMatches b s) = (boundsOf bs).any (fun p => boundsMatch p s) := by
  induction bs with
  | nil => rfl
  | cons b rest ih =>
    simp only [List.any_cons, boundsOf, List.map_cons, bucketMatches] at ih ⊢
    rw [ih]

theorem any_matches_of_initBounds (bs : List SizeBucket) (s : Int)
    (hb : boundsOf bs = boundsOf initBuckets) (hs : 0 ≤ s) :
    bs.any (fun b => bucketMatches b s) = true := by
  rw [any_boundsMatch, hb]
  show ((boundsOf initBuckets).any (fun p => boundsMatch p s)) = true
  simp only [initBuckets, boundsOf, List.map_cons, List.map_nil, List.any_cons,
    List.any_nil, boundsMatch, Bool.or_eq_true, decide_eq_true_eq, Bool.and_eq_true]
  norm_num
  omega

theorem histFold_sumB (l : List ObjectMetadata) :
    ∀ (bs : List SizeBucket), boundsOf bs = boundsOf initBuckets →
    (∀ o ∈ l, 0 ≤ o.size) →
    sumB (l.foldl (fun bs o => placeObject bs o.size) bs) = sumB bs + l.length := by
  induction l with
  | nil => intro bs _ _; simp
  | cons o l ih =>
    intro bs hb hsz
    rw [List.foldl_cons]
    have hmatch : bs.any (fun b => bucketMatches b o.size) = true :=
      any_matches_of_initBounds bs o.size hb (hsz o (List.mem_cons_self _ _))
    have hb2 : boundsOf (placeObject bs o.size) = boundsOf initBuckets := by
      rw [placeObject_boundsOf, hb]
    rw [ih (placeObject bs o.size) hb2 (fun o' ho' => hsz o' (List.mem_cons_of_mem _ ho')),
        placeObject_sumB bs o.size hmatch]
    simp
    omega

theorem countP_initBuckets_one (s : Int) (hs : 0 ≤ s) :
    initBuckets.countP (fun b => bucketMatches b s) = 1 := by
  simp only [initBuckets, List.countP_cons, List.countP_nil, bucketMatches, boundsMatch,
    Bool.and_eq_true, decide_eq_true_eq]
  norm_num
  split_ifs <;> omega

/-! ### Date-range lemmas -/

theorem foldRange_le (l : List ObjectMetadata) :
    ∀ (init : DateRange),
    (foldRange l init).earliest ≤ init.earliest ∧
    init.latest ≤ (foldRange l init).latest ∧
    (∀ o ∈ l, (foldRange l init).earliest ≤ o.lastModified ∧
              o.lastModified ≤ (foldRange l init).latest) := by
  induction l with
  | nil =>
    intro init
    refine ⟨le_refl _, le_refl _, ?_⟩
    intro o ho
    exact absurd ho (List.not_mem_nil o)
  | cons o l ih =>
    intro init
    rw [foldRange, List.foldl_cons]
    obtain ⟨h1, h2, h3⟩ := ih (rangeStep init o)
    have he : (rangeStep init o).earliest ≤ init.earliest ∧
        (rangeStep init o).earliest ≤ o.lastModified := by
      simp only [rangeStep]
      split <;> rename_i h <;> omega
    have hl : init.latest ≤ (rangeStep init o).latest ∧
        o.lastModified ≤ (rangeStep init o).latest := by
      simp only [rangeStep]
      constructor
      · split <;> rename_i h <;> omega
      · split <;> rename_i h <;> omega
    rw [foldRange] at h1 h2 h3
    refine ⟨le_trans h1 he.1, le_trans hl.1 h2, ?_⟩
    intro o' ho'
    rcases List.mem_cons.mp ho' with rfl | hmem
    · exact ⟨le_trans h1 he.2, le_trans hl.2 h2⟩
    · exact h3 o' hmem

theorem foldRange_mem (l : List ObjectMetadata) :
    ∀ (init : DateRange),
    ((foldRange l init).earliest = init.earliest ∨
      ∃ o ∈ l, (foldRange l init).earliest = o.lastModified) ∧
    ((foldRange l init).latest = init.latest ∨
      ∃ o ∈ l, (foldRange l init).latest = o.lastModified) := by
  induction l with
  | nil => intro init; exact ⟨Or.inl rfl, Or.inl rfl⟩
  | cons o l ih =>
    intro init
    rw [foldRange, List.foldl_cons]
    obtain ⟨h1, h2⟩ := ih (rangeStep init o)
    rw [foldRange] at h1 h2
    have he : (rangeStep init o).earliest =
        if o.lastModified < init.earliest then o.lastModified else init.earliest := rfl
    have hl : (rangeStep init o).latest =
        if init.latest < o.lastModified then o.lastModified else init.latest := rfl
    constructor
    · rcases h1 with h1 | ⟨o', ho', hoe⟩
      · rw [he] at h1
        by_cases hc : o.lastModified < init.earliest
        · rw [if_pos hc] at h1
          exact Or.inr ⟨o, List.mem_cons_self _ _, h1⟩
        · rw [if_neg hc] at h1
          exact Or.inl h1
      · exact Or.inr ⟨o', List.mem_cons_of_mem _ ho', hoe⟩
    · rcases h2 with h2 | ⟨o', ho', hoe⟩
      · rw [hl] at h2
        by_cases hc : init.latest < o.lastModified
        · rw [if_pos hc] at h2
          exact Or.inr ⟨o, List.mem_cons_self _ _, h2⟩
        · rw [if_neg hc] at h2
          exact Or.inl h2
      · exact Or.inr ⟨o', List.mem_cons_of_mem _ ho', hoe⟩

/-! ### Cost lemmas -/

theorem foldl_add_eq_sum {α : Type} (f : α → ℚ) (l : List α) :
    ∀ c : ℚ, l.foldl (fun acc e => acc + f e) c = c + (l.map f).sum := by
  induction l with
  | nil => intro c; simp
  | cons e l ih =>
    intro c
    rw [List.foldl_cons, ih, List.map_cons, List.sum_cons]
    ring

theorem calculateCost_eq_sum (scs : List (Key × StorageClassStats)) :
    calculateCost scs =
      (scs.map (fun e => (e.2.size : ℚ) / (1024 * 1024 * 1024) * priceOf e.1)).sum := by
  rw [calculateCost, foldl_add_eq_sum]
  simp

/-! ### File-extension lemmas -/

theorem extOf_eq_nil_of_no_dot (p : Key) (h : '.' ∉ p) : extOf p = [] := by
  rw [extOf]
  have hnr : '.' ∉ p.reverse.takeWhile (fun c => c ≠ '/') := by
    intro hmem
    exact h (List.mem_reverse.mp ((List.takeWhile_sublist _).mem hmem))
  rw [if_neg hnr]

theorem extOf_head_dot (p : Key) (h : extOf p ≠ []) : (extOf p).head? = some '.' := by
  rw [extOf] at h ⊢
  by_cases hd : '.' ∈ p.reverse.takeWhile (fun c => c ≠ '/')
  · rw [if_pos hd] at h ⊢
    rw [List.reverse_append]
    rfl
  · rw [if_neg hd] at h
    exact absurd rfl h

/-! ### Claim theorems -/

/-- C3: for every ObjectRecord collection, the BucketSummary produced by
the aggregator satisfies totalObjects = collection length = sum of the
per-class counts, and totalSize = sum of all record sizes = sum of the
per-class sizes, exactly; an empty storage-class string is counted under
the substituted class "STANDARD". -/
theorem totals_invariant (objects : List ObjectMetadata) :
    (listObjects objects).totalObjects = objects.length ∧
    (listObjects objects).totalSize = (objects.map (fun o => o.size)).sum ∧
    (listObjects objects).totalObjects = sumClassCounts (listObjects objects).storageClasses ∧
    (listObjects objects).totalSize = sumClassSizes (listObjects objects).storageClasses ∧
    (∀ k, classCountOf (listObjects objects).storageClasses k =
      objects.countP (fun o => decide (normClass o.storageClass = k))) ∧
    normClass [] = standardClass := by
  have h := bucketFold_spec objects ⟨0, 0, []⟩
  obtain ⟨h1, h2, h3, h4, h5⟩ := h
  refine ⟨?_, ?_, ?_, ?_, ?_, rfl⟩
  · rw [listObjects, h1]
    simp
  · rw [listObjects, h2]
    simp
  · rw [listObjects, h1, h3]
    simp [sumClassCounts]
  · rw [listObjects, h2, h4]
    simp [sumClassSizes]
  · intro k
    rw [listObjects, h5 k]
    simp [classCountOf]

/-- C4: with all sizes nonnegative, the five histogram bucket counts sum
to the number of objects, every nonnegative size lies in exactly one
bucket, and the boundary size 1024 falls in the second bucket
[1KiB,1MiB), not the first. -/
theorem histogram_exhaustive (objects : List ObjectMetadata)
    (h : ∀ o ∈ objects, 0 ≤ o.size) :
    ((generateSizeDistribution objects).map (fun b => b.count)).sum = objects.length ∧
    (∀ s : Int, 0 ≤ s → initBuckets.countP (fun b => bucketMatches b s) = 1) ∧
    initBuckets.map (fun b => bucketMatches b 1024) = [false, true, false, false, false] := by
  refine ⟨?_, fun s hs => countP_initBuckets_one s hs, by decide⟩
  have hsum := histFold_sumB objects initBuckets rfl h
  rw [generateSizeDistribution]
  show sumB _ = _
  rw [hsum]
  norm_num [sumB, initBuckets]

/-- C7: on the empty collection every core component is total and
returns zero-valued results: zero totals and no storage classes, empty
file-type map, all-zero histogram counts, zero date range, and an empty
partition list. -/
theorem empty_collection_total :
    listObjects [] = ⟨0, 0, []⟩ ∧
    (AnalyzeMetadata []).fileTypeStats = [] ∧
    (AnalyzeMetadata []).dateRange = ⟨0, 0⟩ ∧
    (AnalyzeMetadata []).sizeDistribution.map (fun b => b.count) = [0, 0, 0, 0, 0] ∧
    AnalyzePartitions [] = [] := by
  refine ⟨rfl, rfl, rfl, by decide, ?_⟩
  rw [AnalyzePartitions, if_pos rfl]

/-- C8: estimatedCost is the sum over the classes present of
(bytes / 2^30) * price, with unknown class names priced as "STANDARD";
10 GiB in STANDARD plus 5 GiB in GLACIER yields exactly 0.25 in the
rational model of the float arithmetic. -/
theorem cost_estimate :
    (∀ scs : List (Key × StorageClassStats),
      calculateCost scs =
        (scs.map (fun e => (e.2.size : ℚ) / 2 ^ 30 * priceOf e.1)).sum) ∧
    (∀ k : Key, lookupPrice k = none → priceOf k = priceOf standardClass) ∧
    calculateCost [(standardClass, ⟨1, 10 * 2 ^ 30⟩), ("GLACIER".toList, ⟨1, 5 * 2 ^ 30⟩)] =
      1 / 4 := by
  refine ⟨?_, ?_, ?_⟩
  · intro scs
    rw [calculateCost_eq_sum]
    norm_num
  · intro k hk
    rw [priceOf, hk]
    rfl
  · have hstd : lookupPrice standardClass = some (23 / 1000) := rfl
    have hgla : lookupPrice ("GLACIER".toList) = some (4 / 1000) := rfl
    rw [calculateCost]
    simp only [List.foldl_cons, List.foldl_nil, priceOf, hstd, hgla, Option.getD_some]
    norm_num

/-- C5 counterexample: the key "data.csv/" ends in '/', yet the
file-type extraction classifies it as "csv", not "[directory]" — the
extension test of metadata.go 58-65 runs before the trailing-slash
test, and `filepath.Base` strips the trailing slash first. -/
theorem directory_marker_counterexample :
    endsWithSlash ("data.csv/".toList) = true ∧
    getFileExtension ("data.csv/".toList) ≠ "[directory]".toList ∧
    getFileExtension ("data.csv/".toList) = "csv".toList := by
  decide

/-- C5 (amended): a key ending in '/' is classified as the directory
marker "[directory]" provided its base name (the last path segment
after stripping trailing slashes) contains no '.', so that the
extension test comes up empty. -/
theorem directory_marker (key : Key) (h1 : endsWithSlash key = true)
    (h2 : '.' ∉ baseName key) :
    getFileExtension key = "[directory]".toList := by
  have hext : extOf (baseName key) = [] := extOf_eq_nil_of_no_dot _ h2
  rw [getFileExtension]
  simp [hext, h1]

/-- C5 witness: the amended statement at the key "folder/". -/
theorem directory_marker_witness :
    getFileExtension ("folder/".toList) = "[directory]".toList :=
  directory_marker ("folder/".toList) (by decide) (by decide)

/-- C6: the extraction takes the last path segment and, when it has a
dot suffix, returns that suffix lowercased without the dot; the three
spec examples evaluate as stated. -/
theorem extension_normalization :
    getFileExtension ("a/B.CSV".toList) = "csv".toList ∧
    getFileExtension ("folder/".toList) = "[directory]".toList ∧
    getFileExtension ("README".toList) = "[no extension]".toList ∧
    (∀ key : Key, extOf (baseName key) ≠ [] →
      getFileExtension key = ((extOf (baseName key)).drop 1).map Char.toLower) := by
  refine ⟨by decide, by decide, by decide, ?_⟩
  intro key h
  rw [getFileExtension]
  cases hext : extOf (baseName key) with
  | nil => exact absurd hext h
  | cons c t =>
    have hh := extOf_head_dot (baseName key) h
    rw [hext] at hh
    simp only [List.head?] at hh
    have hc : c = '.' := Option.some.inj hh
    subst hc
    simp [hext]

/-- C6 witness: the dot-suffix branch at the key "x/y.TXT". -/
theorem extension_normalization_witness :
    getFileExtension ("x/y.TXT".toList) =
      ((extOf (baseName ("x/y.TXT".toList))).drop 1).map Char.toLower :=
  extension_normalization.2.2.2 ("x/y.TXT".toList) (by decide)

/-- C9: for a non-empty collection, dateRange.earliest / latest are the
minimum / maximum lastModified over all objects; for the empty
collection both are the zero time. -/
theorem date_range_minmax (objects : List ObjectMetadata) :
    (objects ≠ [] →
      ((AnalyzeMetadata objects).dateRange.earliest ∈
          objects.map (fun o => o.lastModified) ∧
        (∀ o ∈ objects,
          (AnalyzeMetadata objects).dateRange.earliest ≤ o.lastModified)) ∧
      ((AnalyzeMetadata objects).dateRange.latest ∈
          objects.map (fun o => o.lastModified) ∧
        (∀ o ∈ objects,
          o.lastModified ≤ (AnalyzeMetadata objects).dateRange.latest))) ∧
    (AnalyzeMetadata []).dateRange = ⟨0, 0⟩ := by
  refine ⟨?_, rfl⟩
  intro hne
  cases objects with
  | nil => exact absurd rfl hne
  | cons o rest =>
    have hdr : (AnalyzeMetadata (o :: rest)).dateRange =
        foldRange (o :: rest) ⟨o.lastModified, o.lastModified⟩ := rfl
    rw [hdr]
    obtain ⟨hle1, hle2, hbound⟩ := foldRange_le (o :: rest) ⟨o.lastModified, o.lastModified⟩
    obtain ⟨hm1, hm2⟩ := foldRange_mem (o :: rest) ⟨o.lastModified, o.lastModified⟩
    constructor
    · constructor
      · rcases hm1 with he | ⟨o', ho', he⟩
        · rw [he]
          exact List.mem_map_of_mem _ (List.mem_cons_self _ _)
        · rw [he]
          exact List.mem_map_of_mem _ ho'
      · exact fun o' ho' => (hbound o' ho').1
    · constructor
      · rcases hm2 with he | ⟨o', ho', he⟩
        · rw [he]
          exact List.mem_map_of_mem _ (List.mem_cons_self _ _)
        · rw [he]
          exact List.mem_map_of_mem _ ho'
      · exact fun o' ho' => (hbound o' ho').2

/-- C9 witness: minimum membership and lower bound at a concrete
three-object collection. -/
theorem date_range_minmax_witness :
    (AnalyzeMetadata demoMeta).dateRange.earliest ∈
      demoMeta.map (fun o => o.lastModified) ∧
    (AnalyzeMetadata demoMeta).dateRange = ⟨3, 9⟩ :=
  ⟨((date_range_minmax demoMeta).1 (by decide)).1.1, by decide⟩

/-- The date-pattern selection never picks the `dt=` entry: its matches
are a subset of the plain `YYYY-MM-DD` matches tried just before it. -/
theorem find_datePatterns_ne_dt (objects : List ObjectMetadata) (pp : Key × Shape)
    (hf : datePatterns.find? (fun q => coverageOK objects q.2) = some pp) :
    pp.1 ≠ dtName := by
  rw [datePatterns] at hf
  simp only [List.find?_cons] at hf
  cases h1 : coverageOK objects shapeYMDeq with
  | true =>
    simp only [h1] at hf
    obtain rfl := Option.some.inj hf
    decide
  | false =>
  simp only [h1] at hf
  cases h2 : coverageOK objects shapeYMeq with
  | true =>
    simp only [h2] at hf
    obtain rfl := Option.some.inj hf
    decide
  | false =>
  simp only [h2] at hf
  cases h3 : coverageOK objects shapeYMDslash with
  | true =>
    simp only [h3] at hf
    obtain rfl := Option.some.inj hf
    decide
  | false =>
  simp only [h3] at hf
  cases h4 : coverageOK objects shapeYMslash with
  | true =>
    simp only [h4] at hf
    obtain rfl := Option.some.inj hf
    decide
  | false =>
  simp only [h4] at hf
  cases h5 : coverageOK objects shapeYMDdash with
  | true =>
    simp only [h5] at hf
    obtain rfl := Option.some.inj hf
    decide
  | false =>
  simp only [h5] at hf
  cases h6 : coverageOK objects shapeDT with
  | false => simp [h6] at hf
  | true =>
    exfalso
    have hgt := (coverageOK_iff objects shapeDT).mp h6
    have hle : ¬ (2 * countMatched objects shapeYMDdash > objects.length) := by
      intro hg
      have := (coverageOK_iff objects shapeYMDdash).mpr hg
      rw [h5] at this
      exact Bool.false_ne_true this
    have hmono := countMatched_dt_le_dash objects
    omega

/-- C1: the detector tries the six date patterns in the fixed priority
order, returns the groups of the first one whose coverage strictly
exceeds 0.5, sorted by prefix string ascending; the returned groups
carry the accepted pattern's name and exact per-prefix match counts; a
pattern matched by exactly half of the objects is rejected. -/
theorem date_pattern_selection (objects : List ObjectMetadata) :
    detectDatePartitions objects =
      (match datePatterns.find? (fun p => coverageOK objects p.2) with
       | some p => groupByPattern objects p.1 p.2
       | none => []) ∧
    (detectDatePartitions objects).Pairwise (fun p q => lexLe p.pref q.pref = true) ∧
    (∀ q ∈ detectDatePartitions objects,
      ∃ p ∈ datePatterns, q.pattern = p.1 ∧
        q.objectCount =
          objects.countP (fun o => decide (findFirst p.2 o.key = some q.pref))) ∧
    (∀ p ∈ datePatterns, 2 * countMatched objects p.2 = objects.length →
      coverageOK objects p.2 = false) := by
  have heq := detectDatePartitionsGo_eq_find objects datePatterns
  refine ⟨heq, ?_, ?_, ?_⟩
  · show (detectDatePartitionsGo objects datePatterns).Pairwise _
    rw [heq]
    cases hf : datePatterns.find? (fun p => coverageOK objects p.2) with
    | none => exact List.Pairwise.nil
    | some p => exact groupByPattern_sorted objects p.1 p.2
  · intro q hq
    have hq2 : q ∈ detectDatePartitionsGo objects datePatterns := hq
    rw [heq] at hq2
    cases hf : datePatterns.find? (fun p => coverageOK objects p.2) with
    | none =>
      rw [hf] at hq2
      exact absurd hq2 (List.not_mem_nil q)
    | some p =>
      rw [hf] at hq2
      have hmem := List.mem_of_find?_eq_some hf
      have hspec := groupByPattern_mem objects p.1 p.2 q hq2
      exact ⟨p, hmem, hspec.1, hspec.2⟩
  · intro p _ hhalf
    cases hcov : coverageOK objects p.2 with
    | false => rfl
    | true =>
      exfalso
      have := (coverageOK_iff objects p.2).mp hcov
      omega

/-- C1 witness: a pattern matched by exactly half of a concrete
two-object collection is rejected. -/
theorem date_pattern_selection_witness :
    coverageOK demoHalf shapeYMDdash = false :=
  (date_pattern_selection demoHalf).2.2.2 ("YYYY-MM-DD".toList, shapeYMDdash)
    (by decide) (by decide)

/-- C2: when no date pattern is accepted, the detector groups every key
containing a '/' by its substring before the first '/', records the
prefix with a trailing '/' appended and the exact per-prefix counts,
returns an empty result for zero or one distinct group, and otherwise
returns the groups sorted by object count descending. -/
theorem hierarchical_fallback (objects : List ObjectMetadata)
    (h : detectDatePartitions objects = []) :
    AnalyzePartitions objects = detectHierarchicalPartitions objects ∧
    ((hierGroups objects).length ≤ 1 → detectHierarchicalPartitions objects = []) ∧
    (1 < (hierGroups objects).length →
      (detectHierarchicalPartitions objects).Perm ((hierGroups objects).map Prod.snd)) ∧
    (detectHierarchicalPartitions objects).Pairwise
      (fun p q => q.objectCount ≤ p.objectCount) ∧
    (∀ k p, (k, p) ∈ hierGroups objects →
      p.pref = k ++ ['/'] ∧ p.pattern = hierPat ∧
      p.objectCount = objects.countP (fun o => decide (hierKeyOf o = some k))) ∧
    (∀ k, k ∈ keysOf (hierGroups objects) ↔
      0 < objects.countP (fun o => decide (hierKeyOf o = some k))) ∧
    (∀ o : ObjectMetadata, (hierKeyOf o).isSome = true ↔ '/' ∈ o.key) := by
  refine ⟨AnalyzePartitions_eq_hier objects h, detectHierarchical_nil_of_le_one objects,
    detectHierarchical_perm objects, detectHierarchical_sorted objects, ?_, ?_, ?_⟩
  · intro k p hkp
    exact groupFold_mem_spec hierKeyOf (fun k => k ++ ['/']) hierPat objects k p hkp
  · intro k
    exact groupFold_mem_keys_iff hierKeyOf (fun k => k ++ ['/']) hierPat objects k
  · intro o
    rw [hierKeyOf]
    by_cases hs : '/' ∈ o.key
    · simp [hs]
    · simp [hs]

/-- C2 witness: the fallback applies to a concrete collection with two
top-level prefixes and no date structure. -/
theorem hierarchical_fallback_witness :
    AnalyzePartitions demoHier = detectHierarchicalPartitions demoHier :=
  (hierarchical_fallback demoHier (by decide)).1

/-- C10: the partition detector never returns a partition whose pattern
name is "dt=YYYY-MM-DD": every key matching the dt= pattern also
matches the plain YYYY-MM-DD pattern tried earlier, so that pattern is
always accepted first. -/
theorem dt_pattern_never_returned (objects : List ObjectMetadata)
    (p : Partition) (hp : p ∈ AnalyzePartitions objects) :
    p.pattern ≠ dtName := by
  by_cases hd : detectDatePartitions objects = []
  · rw [AnalyzePartitions_eq_hier objects hd] at hp
    rw [detectHierarchical_eq] at hp
    split at hp
    · exact absurd hp (List.not_mem_nil p)
    · rw [mem_sortByLe] at hp
      obtain ⟨e, he, hek⟩ := List.mem_map.mp hp
      obtain ⟨k, q⟩ := e
      have hq : q = p := hek
      subst hq
      have hspec := groupFold_mem_spec hierKeyOf (fun k => k ++ ['/']) hierPat objects k q he
      rw [hspec.2.1]
      decide
  · rw [AnalyzePartitions_eq_date objects hd] at hp
    have heq := detectDatePartitionsGo_eq_find objects datePatterns
    have hp2 : p ∈ (match datePatterns.find? (fun pp => coverageOK objects pp.2) with
        | some pp => groupByPattern objects pp.1 pp.2
        | none => ([] : List Partition)) := by
      rw [← heq]
      exact hp
    cases hf : datePatterns.find? (fun pp => coverageOK objects pp.2) with
    | none =>
      rw [hf] at hp2
      exact absurd hp2 (List.not_mem_nil p)
    | some pp =>
      rw [hf] at hp2
      have hne := find_datePatterns_ne_dt objects pp hf
      have hspec := groupByPattern_mem objects pp.1 pp.2 p hp2
      rw [hspec.1]
      exact hne

/-- C10 witness: the fact instantiated at a concrete collection and a
concrete returned partition. -/
theorem dt_pattern_never_returned_witness :
    (⟨"logs/".toList, hierPat, 2, 3, ["logs/a".toList, "logs/b".toList]⟩ :
      Partition).pattern ≠ dtName :=
  dt_pattern_never_returned demoHier _ (by decide)

/-- C4 witness: the histogram of a single 1024-byte object sums to one
object, counted in the second bucket. -/
theorem histogram_exhaustive_witness :
    ((generateSizeDistribution demoSizes).map (fun b => b.count)).sum = demoSizes.length ∧
    (generateSizeDistribution demoSizes).map (fun b => b.count) = [0, 1, 0, 0, 0] :=
  ⟨(histogram_exhaustive demoSizes (by decide)).1, by decide⟩

/-- C8 witness: a class name missing from the table is priced as
"STANDARD". -/
theorem cost_estimate_witness :
    priceOf ("REDUCED_REDUNDANCY".toList) = priceOf standardClass :=
  cost_estimate.2.1 ("REDUCED_REDUNDANCY".toList) (by decide)
